import Mathlib

/-!
Verification of the MedChat inference gateway (`src/inference/multimodal_base.py`)
and edge proxy (`src/backend/server.py`).

The Python source is shallowly embedded: pure helpers become Lean functions,
fallible code (code that can raise) returns `Option`, byte strings are
`List Nat` (each entry < 256 is irrelevant to the claims, so not enforced),
and the event-loop clock `time.perf_counter()` is modelled as a `Nat`-valued
instant (integer milliseconds; the float multiply-by-1000-and-truncate of the
source collapses to `Nat` subtraction of millisecond instants).
-/

namespace MedChat

/-! ### Base64 (model of Python `base64.b64encode` / `base64.b64decode`)

`b64decode` (with default `validate=False`) discards characters outside the
standard alphabet and `=`, then requires the remaining length to be a multiple
of four and a remainder group of size ≠ 1, raising `binascii.Error` otherwise
(modelled as `none`). -/

def b64Index (c : Char) : Option Nat :=
  if 'A' ≤ c ∧ c ≤ 'Z' then some (c.toNat - 65)
  else if 'a' ≤ c ∧ c ≤ 'z' then some (c.toNat - 97 + 26)
  else if '0' ≤ c ∧ c ≤ '9' then some (c.toNat - 48 + 52)
  else if c = '+' then some 62
  else if c = '/' then some 63
  else none

def b64CharOf (n : Nat) : Char :=
  if n < 26 then Char.ofNat (65 + n)
  else if n < 52 then Char.ofNat (97 + (n - 26))
  else if n < 62 then Char.ofNat (48 + (n - 52))
  else if n = 62 then '+'
  else '/'

/-- Decode a run of already-validated base64 digits (6-bit values) into bytes:
full quads give 3 bytes, a trailing pair gives 1 byte, a trailing triple 2. -/
def b64DecodeVals : List Nat → List Nat
  | a :: b :: c :: d :: rest =>
      (a * 4 + b / 16) :: ((b % 16) * 16 + c / 4) :: ((c % 4) * 64 + d) ::
        b64DecodeVals rest
  | [a, b] => [a * 4 + b / 16]
  | [a, b, c] => [a * 4 + b / 16, (b % 16) * 16 + c / 4]
  | _ => []

/-- Model of `base64.b64decode(s)`; `none` models a raised `binascii.Error`. -/
def b64decode (s : String) : Option (List Nat) :=
  let cs := s.toList.filter (fun c => (b64Index c).isSome || c = '=')
  if cs.length % 4 ≠ 0 then none
  else
    let dat := cs.takeWhile (fun c => c ≠ '=')
    if dat.length % 4 = 1 then none
    else some (b64DecodeVals (dat.filterMap b64Index))

/-- Model of `base64.b64encode(bytes).decode()`: 3-byte groups → 4 digits,
padded with `=` to a multiple of four characters. -/
def b64EncodeBytes : List Nat → List Char
  | x :: y :: z :: rest =>
      b64CharOf (x / 4) :: b64CharOf ((x % 4) * 16 + y / 16) ::
        b64CharOf ((y % 16) * 4 + z / 64) :: b64CharOf (z % 64) ::
        b64EncodeBytes rest
  | [x, y] => [b64CharOf (x / 4), b64CharOf ((x % 4) * 16 + y / 16),
               b64CharOf ((y % 16) * 4), '=']
  | [x] => [b64CharOf (x / 4), b64CharOf ((x % 4) * 16), '=', '=']
  | [] => []

def b64encode (bytes : List Nat) : String :=
  String.mk (b64EncodeBytes bytes)

/-! ### The data-URI pattern

Model of `re.match(r"data:image/[^;]+;base64,(.+)", url)` from
`_extract_images_from_content`.  `re.match` anchors at the start; `[^;]+`
cannot cross a `;`, so `;base64,` must sit exactly at the first `;` after the
literal prefix; `(.+)` is greedy over non-newline characters and must be
non-empty. -/

def matchDataImageB64 (url : String) : Option String :=
  let cs := url.toList
  let pre := "data:image/".toList
  if pre.isPrefixOf cs then
    let rest := cs.drop pre.length
    let sub := rest.takeWhile (fun c => c ≠ ';')
    if sub.isEmpty then none
    else
      let after := rest.drop sub.length
      let marker := ";base64,".toList
      if marker.isPrefixOf after then
        let payload := (after.drop marker.length).takeWhile (fun c => c ≠ '\n')
        if payload.isEmpty then none else some (String.mk payload)
      else none
  else none

/-! ### Content model and the Content Extractor

`MultimodalMessage.content` is either a plain string or a list of parts.
A dict part is keyed by its `"type"`: `"text"` parts contribute
`item.get("text", "")` (missing field defaults to `""`, so we store the
effective string), `"image_url"` parts contribute
`item.get("image_url", {}).get("url", "")` (again stored as the effective
string), and any other `"type"` is ignored.  The attribute-object branch of
the source behaves identically on these shapes. -/

inductive Part where
  | textPart (text : String)
  | imagePart (url : String)
  | otherPart
deriving DecidableEq, Repr

inductive Content where
  | str (s : String)
  | parts (l : List Part)
deriving DecidableEq, Repr

/-- One step of the extraction loop over parts; `none` models an uncaught
`binascii.Error` raised by `base64.b64decode` on a URL that matches the
data-image pattern but whose payload is not valid padded base64. -/
def extractParts : List Part → Option (List String × List (List Nat))
  | [] => some ([], [])
  | Part.textPart t :: rest => do
      let (ts, is) ← extractParts rest
      pure (t :: ts, is)
  | Part.imagePart url :: rest =>
      if ("data:".toList).isPrefixOf url.toList then
        match matchDataImageB64 url with
        | some payload => do
            let bytes ← b64decode payload
            let (ts, is) ← extractParts rest
            pure (ts, bytes :: is)
        | none => extractParts rest
      else extractParts rest
  | Part.otherPart :: rest => extractParts rest

/-- Model of `_extract_images_from_content`; the extracted text is
`" ".join(text_parts)`. -/
def extractImagesFromContent : Content → Option (String × List (List Nat))
  | Content.str s => some (s, [])
  | Content.parts l => do
      let (ts, is) ← extractParts l
      pure (String.intercalate " " ts, is)

/-! ### Message Normalizer (model of `_prepare_messages_for_llm`)

For each message the extractor runs; when images were found, the engine-facing
content is a structured list of parts: one image part per extracted image,
re-encoded as `data:image/jpeg;base64,<b64>`, followed by a text part iff the
extracted text is non-empty.  Otherwise the content is the plain extracted
text. -/

structure Message where
  role : String
  content : Content
deriving DecidableEq, Repr

inductive PreparedPart where
  | image (url : String)
  | text (s : String)
deriving DecidableEq, Repr

inductive PreparedContent where
  | str (s : String)
  | parts (l : List PreparedPart)
deriving DecidableEq, Repr

structure PreparedMessage where
  role : String
  content : PreparedContent
deriving DecidableEq, Repr

/-- The re-encoded image URL built by `_prepare_messages_for_llm`:
`f"data:image/jpeg;base64,{b64}"`. -/
def jpegDataUri (bytes : List Nat) : String :=
  "data:image/jpeg;base64," ++ b64encode bytes

def prepareMessage (m : Message) : Option PreparedMessage := do
  let (text, images) ← extractImagesFromContent m.content
  if images.isEmpty then
    pure ⟨m.role, PreparedContent.str text⟩
  else
    let parts := images.map (fun b => PreparedPart.image (jpegDataUri b))
    let parts := parts ++ (if text = "" then [] else [PreparedPart.text text])
    pure ⟨m.role, PreparedContent.parts parts⟩

/-- Model of `_prepare_messages_for_llm`; `none` models an exception raised
while extracting any message's images. -/
def prepareMessagesForLlm : List Message → Option (List PreparedMessage)
  | [] => some []
  | m :: rest => do
      let p ← prepareMessage m
      let ps ← prepareMessagesForLlm rest
      pure (p :: ps)

/-! ### Streaming Response Emitter (model of `_generate_stream`)

An engine chunk is modelled by the shape the loop inspects: the optional
`"choices"` list (each choice reduced to its `delta`'s optional `"content"`
string) plus the clock instant at which the loop handles the chunk (the value
`time.perf_counter()` would return there, in integer milliseconds).  A frame
`Frame.content ch` stands for `f"data: {json.dumps(chunk)}\n\n"`,
`Frame.usage u p` for the final usage frame and `Frame.done` for the literal
terminal frame `"data: [DONE]\n\n"`. -/

structure DeltaObj where
  content : Option String
deriving DecidableEq, Repr

structure EngineChunk where
  choices : Option (List DeltaObj)
  time : Nat
deriving DecidableEq, Repr

structure Usage where
  promptTokens : Nat
  completionTokens : Nat
  totalTokens : Nat
deriving DecidableEq, Repr

structure Perf where
  queueMs : Nat
  ttftMs : Option Nat
  generationMs : Nat
deriving DecidableEq, Repr

inductive Frame where
  | content (chunk : EngineChunk)
  | usage (u : Usage) (perf : Option Perf)
  | done
  | error (msg : String)
deriving DecidableEq, Repr

/-- Chunks that yield a content frame: `"choices" in chunk and
len(chunk["choices"]) > 0` and `"content" in chunk["choices"][0].get("delta",{})`. -/
def hasContentDelta (ch : EngineChunk) : Bool :=
  match ch.choices with
  | some (d :: _) => d.content.isSome
  | _ => false

/-- The `"content"` value of the first choice's delta, when present. -/
def contentOf (ch : EngineChunk) : Option String :=
  match ch.choices with
  | some (d :: _) => d.content
  | _ => none

/-- The per-chunk loop of `_generate_stream`, threading the accumulated
`generated_text` and the optional `first_token_time`; returns the emitted
content frames, the final text and the final first-token instant. -/
def streamLoop : List EngineChunk → String → Option Nat →
    (List Frame × String × Option Nat)
  | [], text, ftt => ([], text, ftt)
  | ch :: rest, text, ftt =>
      match contentOf ch with
      | some c =>
          let ftt' := if ftt = none ∧ c ≠ "" then some ch.time else ftt
          let r := streamLoop rest (text ++ c) ftt'
          (Frame.content ch :: r.1, r.2)
      | none => streamLoop rest text ftt

/-- Split a character list at each whitespace character. -/
def splitWs : List Char → List (List Char)
  | [] => [[]]
  | c :: t =>
      if c.isWhitespace then [] :: splitWs t
      else
        match splitWs t with
        | h :: r => (c :: h) :: r
        | [] => [[c]]

/-- Model of Python `len(generated_text.split())`: split on whitespace,
empty fields discarded (ASCII whitespace; the Unicode extras of `str.split`
do not arise here). -/
def wordCount (s : String) : Nat :=
  ((splitWs s.toList).filter (fun w => !w.isEmpty)).length

/-- The usage record of the final frame.  The source computes
`completion_tokens = len(text.split()) * 1.3` in floats and truncates with
`int(...)`; for every word count `w`, `int(w * 1.3) = 13*w/10` exactly
(`1.3` rounds to a double slightly above 13/10, and the product never rounds
below an attained integer), so the embedding uses exact arithmetic. -/
def usageOf (text : String) : Usage :=
  let completion := 13 * wordCount text / 10
  ⟨100, completion, 100 + completion⟩

/-- `ttft_ms`: the source guards with Python truthiness
(`if first_token_time`), so a recorded instant of exactly `0` would also
report null; instants are positive in reality (hypothesised in theorems). -/
def ttftField (requestStart : Nat) : Option Nat → Option Nat
  | some t => if t ≠ 0 then some (t - requestStart) else none
  | none => none

/-- The optional `perf` object of the usage frame. -/
def perfOf (requestStart waitStart lockAcquired generationDone : Nat)
    (includePerf : Bool) (ftt : Option Nat) : Option Perf :=
  if includePerf then
    some ⟨lockAcquired - waitStart, ttftField requestStart ftt,
          generationDone - lockAcquired⟩
  else none

/-- Model of `_generate_stream` on a run in which the engine iterator is
exhausted without raising: the content frames, then the usage frame, then the
terminal frame. -/
def generateStreamOk (requestStart waitStart lockAcquired generationDone : Nat)
    (includePerf : Bool) (chunks : List EngineChunk) : List Frame :=
  let r := streamLoop chunks "" none
  r.1 ++ [Frame.usage (usageOf r.2.1)
            (perfOf requestStart waitStart lockAcquired generationDone
              includePerf r.2.2),
          Frame.done]

/-- Concatenation of the `"content"` fields of the frame-yielding chunks
(the final value of `generated_text`). -/
def emittedText : List EngineChunk → String
  | [] => ""
  | ch :: rest =>
      match contentOf ch with
      | some c => c ++ emittedText rest
      | none => emittedText rest

/-- The instant of the first chunk carrying a non-empty `"content"`
(the final value of `first_token_time`). -/
def firstTok : List EngineChunk → Option Nat
  | [] => none
  | ch :: rest =>
      match contentOf ch with
      | some c => if c ≠ "" then some ch.time else firstTok rest
      | none => firstTok rest

/-- Whether at least one token (non-empty content delta) was produced. -/
def producedToken : List EngineChunk → Bool
  | [] => false
  | ch :: rest =>
      match contentOf ch with
      | some c => if c = "" then producedToken rest else true
      | none => producedToken rest

/-! ### Chat Gateway (model of the `chat_completions` handler)

The 503 for an unloaded model is raised before the `try:` block and reaches
the client as-is.  Everything else runs inside
`try: ... except Exception as e: raise HTTPException(500, str(e))`, and
`fastapi.HTTPException` derives from `Exception`, so the
`raise HTTPException(400, ...)` for a missing input is caught by that handler
and resurfaces as a 500 whose detail is `str(e) = "400: Either messages or
prompt required"`.  `if request.messages:` / `elif request.prompt:` are Python
truthiness tests: an empty list and an empty string both count as absent. -/

structure GenRequest where
  prompt : Option String
  messages : Option (List Message)
  stream : Bool
  includePerf : Bool
deriving DecidableEq, Repr

inductive GatewayResponse where
  | streaming (engineInput : List PreparedMessage) (includePerf : Bool)
  | complete (engineInput : List PreparedMessage)
  | httpError (status : Nat) (detail : String)
deriving DecidableEq, Repr

def chatCompletions (llmLoaded : Bool) (alwaysIncludePerf : Bool)
    (req : GenRequest) : GatewayResponse :=
  if ¬ llmLoaded then GatewayResponse.httpError 503 "Model not loaded"
  else
    let includePerf := req.includePerf || alwaysIncludePerf
    match req.messages with
    | some (m :: ms) =>
        match prepareMessagesForLlm (m :: ms) with
        | some prepared =>
            if req.stream then GatewayResponse.streaming prepared includePerf
            else GatewayResponse.complete prepared
        | none => GatewayResponse.httpError 500 "base64 decode failed"
    | _ =>
        match req.prompt with
        | some p =>
            if p ≠ "" then
              let msgs := [PreparedMessage.mk "user" (PreparedContent.str p)]
              if req.stream then GatewayResponse.streaming msgs includePerf
              else GatewayResponse.complete msgs
            else GatewayResponse.httpError 500
              "400: Either messages or prompt required"
        | none => GatewayResponse.httpError 500
            "400: Either messages or prompt required"

/-! ### Admission Gate (model of `inference_lock = asyncio.Semaphore(max_concurrent)`)

A global execution is a trace of acquire/release events tagged with request
ids.  `validSchedB` is the semaphore semantics: an acquire fires only while
fewer than `max_concurrent` slots are held (waiters stay suspended), a release
only by a holder.  `emitterGateTrace` is what one request contributes: both
generation paths enter `async with inference_lock:` exactly once, and the
scoped acquisition of `async with` runs the release exactly once on every exit
of the block — normal completion, an exception from the engine, or
cancellation of the task (e.g. client disconnect). -/

inductive GateEvent where
  | acquire (id : Nat)
  | release (id : Nat)
deriving DecidableEq, Repr

def GateEvent.id : GateEvent → Nat
  | acquire i => i
  | release i => i

inductive ExitPath where
  | completed
  | engineError
  | cancelled
deriving DecidableEq, Repr, Fintype

/-- The gate events one request emits, on any exit path (scoped acquisition). -/
def emitterGateTrace (i : Nat) (_path : ExitPath) : List GateEvent :=
  [GateEvent.acquire i, GateEvent.release i]

/-- The semaphore state transition: the list of holder ids. -/
def gateStep (holders : List Nat) : GateEvent → List Nat
  | GateEvent.acquire i => i :: holders
  | GateEvent.release i => holders.erase i

def gateRun : List Nat → List GateEvent → List Nat
  | holders, [] => holders
  | holders, e :: t => gateRun (gateStep holders e) t

/-- Whether a trace respects the semaphore semantics from the given state. -/
def validSchedB (maxConc : Nat) : List Nat → List GateEvent → Bool
  | _, [] => true
  | holders, GateEvent.acquire i :: t =>
      decide (i ∉ holders) && decide (holders.length < maxConc) &&
        validSchedB maxConc (i :: holders) t
  | holders, GateEvent.release i :: t =>
      decide (i ∈ holders) && validSchedB maxConc (holders.erase i) t

/-- Peak number of simultaneously held slots along a trace. -/
def peakInFlight : List Nat → List GateEvent → Nat
  | holders, [] => holders.length
  | holders, e :: t => max holders.length (peakInFlight (gateStep holders e) t)

/-- Number of acquires by request `i` in a trace. -/
def cntAcq (i : Nat) : List GateEvent → Nat
  | [] => 0
  | GateEvent.acquire j :: t => (if j = i then 1 else 0) + cntAcq i t
  | GateEvent.release _ :: t => cntAcq i t

/-- Number of releases by request `i` in a trace. -/
def cntRel (i : Nat) : List GateEvent → Nat
  | [] => 0
  | GateEvent.acquire _ :: t => cntRel i t
  | GateEvent.release j :: t => (if j = i then 1 else 0) + cntRel i t

/-! ### Edge Proxy (model of `stream_response` in `src/backend/server.py`)

The proxied body is a character stream.  On a 200 the proxy iterates
`response.aiter_lines()` (modelled as splitting the body at `'\n'`), keeps
the lines starting with `"data: "` and re-emits each as `f"{line}\n\n"`.  On
a non-200 it reads the body and emits one synthesized error frame; likewise
for any exception while reaching the Gateway and for an uninitialized client. -/

def dataTag : List Char := "data: ".toList

def splitNl : List Char → List (List Char)
  | [] => [[]]
  | c :: t =>
      if c = '\n' then [] :: splitNl t
      else
        match splitNl t with
        | h :: r => (c :: h) :: r
        | [] => [[c]]

def proxyForward (body : List Char) : List Char :=
  List.flatten (((splitNl body).filter (fun l => dataTag.isPrefixOf l)).map
    (fun l => l ++ ['\n', '\n']))

/-- Model of `json.dumps` string escaping (`ensure_ascii=True`). -/
def jsonEscapeChar (c : Char) : List Char :=
  if c = '"' then ['\\', '"']
  else if c = '\\' then ['\\', '\\']
  else if c = '\n' then ['\\', 'n']
  else if c = '\t' then ['\\', 't']
  else if c = '\r' then ['\\', 'r']
  else if c.toNat < 32 ∨ 127 ≤ c.toNat then
    let hexDigit := fun (n : Nat) => if n < 10 then Char.ofNat (48 + n)
      else Char.ofNat (97 + (n - 10))
    ['\\', 'u', hexDigit (c.toNat / 4096 % 16), hexDigit (c.toNat / 256 % 16),
     hexDigit (c.toNat / 16 % 16), hexDigit (c.toNat % 16)]
  else [c]

/-- `json.dumps({'error': msg})` (the `\x7b`/`\x7d` escapes are the literal
braces of the JSON object). -/
def jsonErrorObj (msg : String) : List Char :=
  "\x7b\"error\": \"".toList ++ List.flatten (msg.toList.map jsonEscapeChar) ++
    "\"\x7d".toList

/-- The single synthesized error frame `f"data: {json.dumps({'error': ...})}\n\n"`. -/
def errorFrame (msg : String) : List Char :=
  dataTag ++ jsonErrorObj msg ++ ['\n', '\n']

/-- What the proxy observes from the Gateway on one streaming request. -/
inductive GatewayHttp where
  | ok (body : List Char)
  | errStatus (code : Nat) (body : String)
  | connError (msg : String)

/-- Model of `stream_response`: the full character stream the proxy emits. -/
def streamResponse (clientInit : Bool) (gw : GatewayHttp) : List Char :=
  if ¬ clientInit then errorFrame "HTTP client not initialized"
  else
    match gw with
    | GatewayHttp.ok body => proxyForward body
    | GatewayHttp.errStatus _ body => errorFrame body
    | GatewayHttp.connError msg => errorFrame msg

/-! ## Helper definitions and lemmas for the theorems -/

/-- A part on which the extraction loop cannot raise: anything except an
image part whose URL matches the data-image pattern with an undecodable
payload. -/
def partSafe : Part → Bool
  | Part.imagePart url =>
      if ("data:".toList).isPrefixOf url.toList then
        match matchDataImageB64 url with
        | some payload => (b64decode payload).isSome
        | none => true
      else true
  | _ => true

lemma extractParts_isSome_of_safe (l : List Part)
    (h : ∀ p ∈ l, partSafe p = true) : (extractParts l).isSome := by
  induction l with
  | nil => decide
  | cons p rest ih =>
      have hrest : (extractParts rest).isSome :=
        ih (fun q hq => h q (List.mem_cons_of_mem _ hq))
      obtain ⟨r, hr⟩ := Option.isSome_iff_exists.mp hrest
      have hp := h p (List.mem_cons_self _ _)
      cases p with
      | textPart t => simp [extractParts, hr]
      | otherPart => simp [extractParts, hr]
      | imagePart url =>
          simp only [partSafe] at hp
          simp only [extractParts]
          split at hp
          next hcond =>
            rw [if_pos hcond]
            cases hm : matchDataImageB64 url with
            | none => simp [hr]
            | some payload =>
                rw [hm] at hp
                have hp' : (b64decode payload).isSome = true := hp
                obtain ⟨bytes, hb⟩ := Option.isSome_iff_exists.mp hp'
                simp [hb, hr]
          next hcond =>
            rw [if_neg hcond]
            simp [hr]

/-- The image-part list of a normalized message's content. -/
def preparedParts : PreparedContent → List PreparedPart
  | PreparedContent.str _ => []
  | PreparedContent.parts l => l

/-! ## Claims -/

/-- **C5** (corrected, counterexample): the claim that the extractor never
raises on any content value is false — a part whose URL matches
`data:image/<subtype>;base64,<payload>` but whose payload is not valid padded
base64 makes `base64.b64decode` raise `binascii.Error`, which propagates
(modelled by `none`): witness payload `"A"`. -/
theorem extractor_raises_on_bad_base64 :
    extractImagesFromContent
        (Content.parts [Part.imagePart "data:image/png;base64,A"]) = none := by
  decide

/-- **C5** (amended): the extractor never raises on plain-string content or on
malformed parts that fail the data-URI recognition — non-data URLs and
malformed `data:` prefixes are skipped and extraction continues — and
`extract([\x7btype:image_url, image_url:\x7burl:"not-a-data-uri"\x7d\x7d])`
returns `("", [])`; only a part matching the data-image-base64 pattern whose
payload fails base64 decoding raises. -/
theorem extractor_skips_malformed :
    (∀ s : String, extractImagesFromContent (Content.str s) = some (s, [])) ∧
    (∀ l : List Part, (∀ p ∈ l, partSafe p = true) →
      (extractImagesFromContent (Content.parts l)).isSome) ∧
    extractImagesFromContent
        (Content.parts [Part.imagePart "not-a-data-uri"]) = some ("", []) := by
  refine ⟨fun s => rfl, fun l h => ?_, by decide⟩
  obtain ⟨r, hr⟩ := Option.isSome_iff_exists.mp (extractParts_isSome_of_safe l h)
  simp [extractImagesFromContent, hr]

/-- Witness for `extractor_skips_malformed`: a mixed list of skippable
malformed parts extracts successfully. -/
theorem extractor_skips_malformed_witness :
    (∀ p ∈ [Part.textPart "a", Part.imagePart "https://x.org/i.png",
            Part.imagePart "data:text/plain;base64,AAAA", Part.otherPart],
        partSafe p = true) ∧
    (extractImagesFromContent (Content.parts
      [Part.textPart "a", Part.imagePart "https://x.org/i.png",
       Part.imagePart "data:text/plain;base64,AAAA",
       Part.otherPart])).isSome := by
  exact ⟨by decide, extractor_skips_malformed.2.1 _ (by decide)⟩

/-- **C6**: for every message whose extraction succeeds, the normalizer emits
a structured content array of all re-encoded image parts in encounter order
followed by one text part omitted exactly when the extracted text is empty —
and plain text content equal to the extracted text when no image was found. -/
theorem normalizer_message_shape (m : Message) (text : String)
    (imgs : List (List Nat))
    (h : extractImagesFromContent m.content = some (text, imgs)) :
    prepareMessage m = some ⟨m.role,
      if imgs = [] then PreparedContent.str text
      else PreparedContent.parts
        (imgs.map (fun b => PreparedPart.image (jpegDataUri b)) ++
          (if text = "" then [] else [PreparedPart.text text]))⟩ := by
  cases imgs with
  | nil => simp [prepareMessage, h]
  | cons b bs => simp [prepareMessage, h]

/-- Witness for `normalizer_message_shape`: a message with one PNG image and
text `"hi"` normalizes to one re-encoded image part followed by one text part. -/
theorem normalizer_message_shape_witness :
    extractImagesFromContent (Content.parts
        [Part.imagePart "data:image/png;base64,AAAA", Part.textPart "hi"]) =
      some ("hi", [[0, 0, 0]]) ∧
    prepareMessage ⟨"user", Content.parts
        [Part.imagePart "data:image/png;base64,AAAA", Part.textPart "hi"]⟩ =
      some ⟨"user", PreparedContent.parts
        [PreparedPart.image "data:image/jpeg;base64,AAAA",
         PreparedPart.text "hi"]⟩ := by
  refine ⟨by decide, ?_⟩
  have := normalizer_message_shape
    ⟨"user", Content.parts
        [Part.imagePart "data:image/png;base64,AAAA", Part.textPart "hi"]⟩
    "hi" [[0, 0, 0]] (by decide)
  simpa using this

lemma jpegDataUri_has_jpeg_marker (bytes : List Nat) :
    ("data:image/jpeg;base64,".toList).isPrefixOf
      (jpegDataUri bytes).toList = true := by
  have hsplit : (jpegDataUri bytes).toList =
      "data:image/jpeg;base64,".toList ++ (b64encode bytes).toList :=
    String.data_append _ _
  rw [hsplit, List.isPrefixOf_iff_prefix]
  exact List.prefix_append _ _

/-- **C10**: every image part the normalizer emits is a
`data:image/jpeg;base64,` URI over the re-encoded bytes, whatever media type
the original data URI declared. -/
theorem reencode_media_type_jpeg (m : Message) (prep : PreparedMessage)
    (h : prepareMessage m = some prep) (url : String)
    (hmem : PreparedPart.image url ∈ preparedParts prep.content) :
    ∃ bytes, url = jpegDataUri bytes ∧
      ("data:image/jpeg;base64,".toList).isPrefixOf url.toList = true := by
  rcases hx : extractImagesFromContent m.content with _ | ⟨text, imgs⟩
  · simp [prepareMessage, hx] at h
  · cases imgs with
    | nil =>
        simp [prepareMessage, hx] at h
        rw [← h] at hmem
        simp [preparedParts] at hmem
    | cons b bs =>
        simp [prepareMessage, hx] at h
        subst h
        simp only [preparedParts] at hmem
        have himg : ∃ bytes, url = jpegDataUri bytes := by
          rcases List.mem_cons.mp hmem with hb | hrest
          · exact ⟨b, (PreparedPart.image.injEq _ _).mp hb⟩
          · rcases List.mem_append.mp hrest with hmap | htail
            · obtain ⟨bytes, _, hb⟩ := List.mem_map.mp hmap
              exact ⟨bytes, ((PreparedPart.image.injEq _ _).mp hb).symm⟩
            · by_cases ht : text = "" <;> simp [ht] at htail
        obtain ⟨bytes, hb⟩ := himg
        exact ⟨bytes, hb, hb ▸ jpegDataUri_has_jpeg_marker bytes⟩

/-- Witness for `reencode_media_type_jpeg`: a PNG data URI comes back as an
`image/jpeg` URI over the same bytes. -/
theorem reencode_media_type_jpeg_witness :
    prepareMessage ⟨"user", Content.parts
        [Part.imagePart "data:image/png;base64,AAAA"]⟩ =
      some ⟨"user", PreparedContent.parts
        [PreparedPart.image "data:image/jpeg;base64,AAAA"]⟩ ∧
    ∃ bytes, "data:image/jpeg;base64,AAAA" = jpegDataUri bytes ∧
      ("data:image/jpeg;base64,".toList).isPrefixOf
        "data:image/jpeg;base64,AAAA".toList = true := by
  refine ⟨by decide, ?_⟩
  exact reencode_media_type_jpeg
    ⟨"user", Content.parts [Part.imagePart "data:image/png;base64,AAAA"]⟩
    ⟨"user", PreparedContent.parts
      [PreparedPart.image "data:image/jpeg;base64,AAAA"]⟩
    (by decide) "data:image/jpeg;base64,AAAA" (by decide)

/-- **C3** (code bug): with the model loaded and neither `messages` nor
`prompt` supplied, the handler raises `HTTPException(400, ...)` inside its own
`try` block, whose `except Exception` clause catches it (FastAPI's
`HTTPException` subclasses `Exception`) and re-raises it as a 500 — the
request is rejected, but with status 500, not the intended 400. -/
theorem missing_input_returns_500 :
    chatCompletions true false ⟨none, none, false, false⟩ =
      GatewayResponse.httpError 500 "400: Either messages or prompt required" ∧
    ∀ detail : String, chatCompletions true false ⟨none, none, false, false⟩ ≠
      GatewayResponse.httpError 400 detail := by
  refine ⟨by decide, fun detail hcontra => ?_⟩
  rw [show chatCompletions true false ⟨none, none, false, false⟩ =
      GatewayResponse.httpError 500 "400: Either messages or prompt required"
    from by decide] at hcontra
  simp at hcontra

/-- **C9** (corrected, counterexample): `messages` supplied as the empty list
together with a prompt does not take precedence — `if request.messages:` is a
truthiness test, so the empty list falls through to the prompt branch, while
the claim's normalization of `messages = []` would give the engine the empty
input. -/
theorem empty_messages_falls_back_to_prompt :
    chatCompletions true false ⟨some "hi", some [], false, false⟩ =
      GatewayResponse.complete [⟨"user", PreparedContent.str "hi"⟩] ∧
    prepareMessagesForLlm [] = some [] ∧
    GatewayResponse.complete [PreparedMessage.mk "user"
      (PreparedContent.str "hi")] ≠
      GatewayResponse.complete ([] : List PreparedMessage) := by
  decide

/-- **C9** (amended): whenever `messages` is supplied *non-empty* (and its
normalization succeeds), the gateway uses the normalized messages as the
engine input and the supplied `prompt` is ignored entirely. -/
theorem messages_precedence_nonempty (ap strm ipf : Bool) (pr : Option String)
    (m : Message) (ms : List Message) (prep : List PreparedMessage)
    (h : prepareMessagesForLlm (m :: ms) = some prep) :
    chatCompletions true ap ⟨pr, some (m :: ms), strm, ipf⟩ =
      if strm then GatewayResponse.streaming prep (ipf || ap)
      else GatewayResponse.complete prep := by
  simp [chatCompletions, h]

/-- Witness for `messages_precedence_nonempty`: with both a non-empty
`messages` and a `prompt` supplied, the engine input is the normalized
messages, not the prompt. -/
theorem messages_precedence_nonempty_witness :
    prepareMessagesForLlm [⟨"user", Content.str "from messages"⟩] =
      some [⟨"user", PreparedContent.str "from messages"⟩] ∧
    chatCompletions true false
        ⟨some "from prompt", some [⟨"user", Content.str "from messages"⟩],
         false, false⟩ =
      GatewayResponse.complete [⟨"user", PreparedContent.str "from messages"⟩] := by
  refine ⟨by decide, ?_⟩
  have := messages_precedence_nonempty false false false (some "from prompt")
    ⟨"user", Content.str "from messages"⟩ []
    [⟨"user", PreparedContent.str "from messages"⟩] (by decide)
  simpa using this

lemma hasContentDelta_eq_isSome (ch : EngineChunk) :
    hasContentDelta ch = (contentOf ch).isSome := by
  rcases ch with ⟨choices, time⟩
  rcases choices with _ | ⟨_ | ⟨d, ds⟩⟩ <;> rfl

/-- The emission loop, in closed form: it emits one content frame per chunk
whose first choice's delta carries a `"content"` key, accumulates the
concatenated content and records the first non-empty-content instant. -/
lemma streamLoop_spec (chunks : List EngineChunk) (text : String)
    (ftt : Option Nat) :
    streamLoop chunks text ftt =
      ((chunks.filter hasContentDelta).map Frame.content,
       text ++ emittedText chunks, ftt.or (firstTok chunks)) := by
  induction chunks generalizing text ftt with
  | nil => simp [streamLoop, emittedText, firstTok]
  | cons ch rest ih =>
      cases hc : contentOf ch with
      | none =>
          simp [streamLoop, hc, ih, emittedText, firstTok,
            List.filter_cons, hasContentDelta_eq_isSome]
      | some c =>
          have h1 : (ch :: rest).filter hasContentDelta =
              ch :: rest.filter hasContentDelta := by
            simp [List.filter_cons, hasContentDelta_eq_isSome, hc]
          have h2 : emittedText (ch :: rest) = c ++ emittedText rest := by
            simp [emittedText, hc]
          have h3 : firstTok (ch :: rest) =
              if c ≠ "" then some ch.time else firstTok rest := by
            simp [firstTok, hc]
          simp only [streamLoop, hc, ih, h1, h2, h3, List.map_cons,
            Prod.mk.injEq]
          refine ⟨trivial, ?_, ?_⟩
          · rw [String.append_assoc]
          · cases ftt with
            | none => by_cases hce : c = "" <;> simp [hce, Option.or]
            | some t0 => simp [Option.or]

/-- `_generate_stream` on an error-free engine run, in closed form. -/
lemma generateStreamOk_decomp (rs ws la gd : Nat) (ip : Bool)
    (chunks : List EngineChunk) :
    generateStreamOk rs ws la gd ip chunks =
      (chunks.filter hasContentDelta).map Frame.content ++
        [Frame.usage (usageOf (emittedText chunks))
           (perfOf rs ws la gd ip (firstTok chunks)), Frame.done] := by
  simp [generateStreamOk, streamLoop_spec, Option.or]

lemma firstTok_none_iff (chunks : List EngineChunk) :
    firstTok chunks = none ↔ producedToken chunks = false := by
  induction chunks with
  | nil => simp [firstTok, producedToken]
  | cons ch rest ih =>
      cases hc : contentOf ch with
      | none => simpa [firstTok, producedToken, hc] using ih
      | some c =>
          by_cases hce : c = "" <;>
            simp [firstTok, producedToken, hc, hce, ih]

lemma firstTok_mem (chunks : List EngineChunk) (t : Nat)
    (h : firstTok chunks = some t) : ∃ ch ∈ chunks, ch.time = t := by
  induction chunks with
  | nil => simp [firstTok] at h
  | cons ch rest ih =>
      cases hc : contentOf ch with
      | none =>
          rw [firstTok, hc] at h
          obtain ⟨ch', hmem, ht⟩ := ih h
          exact ⟨ch', List.mem_cons_of_mem _ hmem, ht⟩
      | some c =>
          rw [firstTok, hc] at h
          have h' : (if c ≠ "" then some ch.time else firstTok rest) =
              some t := h
          by_cases hce : c = ""
          · rw [if_neg (not_not_intro hce)] at h'
            obtain ⟨ch', hmem, ht⟩ := ih h'
            exact ⟨ch', List.mem_cons_of_mem _ hmem, ht⟩
          · rw [if_pos hce] at h'
            exact ⟨ch, List.mem_cons_self _ _,
              (Option.some.injEq _ _).mp h'⟩

/-- **C2**: on every error-free engine run the emitter yields exactly one
content frame per delta carrying a `"content"` field, in engine order, then
exactly one usage frame, then the terminal frame, and nothing else; in
particular the run `["Hello", " world"]` yields two content frames, a usage
frame whose `completion_tokens` is derived from `"Hello world"`, then the
terminal frame. -/
theorem stream_frame_structure (rs ws la gd : Nat) (ip : Bool)
    (chunks : List EngineChunk) :
    generateStreamOk rs ws la gd ip chunks =
      (chunks.filter hasContentDelta).map Frame.content ++
        [Frame.usage (usageOf (emittedText chunks))
           (perfOf rs ws la gd ip (firstTok chunks)), Frame.done] ∧
    generateStreamOk 1 1 1 2 false
        [⟨some [⟨some "Hello"⟩], 1⟩, ⟨some [⟨some " world"⟩], 2⟩] =
      [Frame.content ⟨some [⟨some "Hello"⟩], 1⟩,
       Frame.content ⟨some [⟨some " world"⟩], 2⟩,
       Frame.usage ⟨100, 2, 102⟩ none, Frame.done] :=
  ⟨generateStreamOk_decomp rs ws la gd ip chunks, by decide⟩

/-- **C7**: in the usage frame of every streamed response,
`completion_tokens` is the word count of the concatenated emitted text times
1.3 rounded down, `prompt_tokens` is the fixed placeholder 100, and
`total_tokens` is their sum. -/
theorem usage_token_accounting (rs ws la gd : Nat) (ip : Bool)
    (chunks : List EngineChunk) :
    (usageOf (emittedText chunks)).promptTokens = 100 ∧
    (usageOf (emittedText chunks)).completionTokens =
      Nat.floor ((wordCount (emittedText chunks) : ℚ) * (13 / 10)) ∧
    (usageOf (emittedText chunks)).totalTokens =
      (usageOf (emittedText chunks)).promptTokens +
        (usageOf (emittedText chunks)).completionTokens ∧
    Frame.usage (usageOf (emittedText chunks))
        (perfOf rs ws la gd ip (firstTok chunks)) ∈
      generateStreamOk rs ws la gd ip chunks := by
  refine ⟨rfl, ?_, rfl, ?_⟩
  · have hcast : ((wordCount (emittedText chunks) : ℚ)) * (13 / 10) =
        ((13 * wordCount (emittedText chunks) : ℕ) : ℚ) / ((10 : ℕ) : ℚ) := by
      push_cast
      ring
    rw [usageOf, hcast, Nat.floor_div_nat, Nat.floor_natCast]
  · rw [generateStreamOk_decomp]
    exact List.mem_append_right _ (List.mem_cons_self _ _)

/-- **C4** (corrected, counterexample): with `include_perf=true` and one token
produced, `ttft_ms` can exceed `generation_ms` — `ttft_ms` is measured from
`request_start` and therefore includes the queueing delay, while
`generation_ms` starts only at lock acquisition.  Clock (ms): request at 1,
lock acquired at 5001, token at 5101, done at 5201: `ttft_ms = 5100 >
generation_ms = 200`. -/
theorem perf_ttft_exceeds_generation :
    generateStreamOk 1 1 5001 5201 true [⟨some [⟨some "Hello"⟩], 5101⟩] =
      [Frame.content ⟨some [⟨some "Hello"⟩], 5101⟩,
       Frame.usage ⟨100, 1, 101⟩ (some ⟨5000, some 5100, 200⟩), Frame.done] ∧
    producedToken [⟨some [⟨some "Hello"⟩], 5101⟩] = true ∧
    ¬ (5100 ≤ 200) := by
  decide

/-- **C4** (amended): in the usage frame, `perf` is absent when the
per-request flag and the process-wide override are both off, and present with
`include_perf=true`; `ttft_ms` is null exactly when zero tokens were
produced; and when at least one token was produced,
`ttft_ms ≤ (wait_start − request_start) + queue_ms + generation_ms` — the
two initial clock reads are adjacent, so effectively
`ttft_ms ≤ queue_ms + generation_ms`; the claim's stronger
`ttft_ms ≤ generation_ms` fails whenever the request queues
(`perf_ttft_exceeds_generation`). -/
theorem perf_telemetry_fields (rs ws la gd : Nat) (ip : Bool)
    (chunks : List EngineChunk)
    (hrs : 0 < rs) (hws : rs ≤ ws) (hla : ws ≤ la)
    (hchunks : ∀ ch ∈ chunks, la ≤ ch.time ∧ ch.time ≤ gd) :
    perfOf rs ws la gd (false || false) (firstTok chunks) = none ∧
    (∃ p, perfOf rs ws la gd true (firstTok chunks) = some p ∧
      p.queueMs = la - ws ∧ p.generationMs = gd - la ∧
      (p.ttftMs = none ↔ producedToken chunks = false) ∧
      (∀ t, p.ttftMs = some t →
        t ≤ (ws - rs) + (p.queueMs + p.generationMs))) ∧
    Frame.usage (usageOf (emittedText chunks))
        (perfOf rs ws la gd ip (firstTok chunks)) ∈
      generateStreamOk rs ws la gd ip chunks := by
  refine ⟨rfl, ⟨⟨la - ws, ttftField rs (firstTok chunks), gd - la⟩,
    rfl, rfl, rfl, ?_, ?_⟩, ?_⟩
  · cases hft : firstTok chunks with
    | none =>
        simp [ttftField, (firstTok_none_iff chunks).mp hft]
    | some t0 =>
        obtain ⟨ch, hmem, ht⟩ := firstTok_mem chunks t0 hft
        have hl := (hchunks ch hmem).1
        have hpos : t0 ≠ 0 := by omega
        have hprod : producedToken chunks = true := by
          rcases hb : producedToken chunks with _ | _
          · exact absurd ((firstTok_none_iff chunks).mpr hb) (by simp [hft])
          · rfl
        simp [ttftField, hpos, hprod]
  · intro t hteq
    cases hft : firstTok chunks with
    | none =>
        rw [hft] at hteq
        exact absurd hteq (by simp [ttftField])
    | some t0 =>
        obtain ⟨ch, hmem, ht⟩ := firstTok_mem chunks t0 hft
        obtain ⟨h1, h2⟩ := hchunks ch hmem
        rw [hft] at hteq
        have hpos : t0 ≠ 0 := by omega
        have hteq' : (if t0 ≠ 0 then some (t0 - rs) else none) = some t := hteq
        rw [if_pos hpos] at hteq'
        have heq : t0 - rs = t := (Option.some.injEq _ _).mp hteq'
        show t ≤ (ws - rs) + ((la - ws) + (gd - la))
        omega
  · rw [generateStreamOk_decomp]
    exact List.mem_append_right _ (List.mem_cons_self _ _)

/-- Witness for `perf_telemetry_fields` (clock in ms: request 1, wait 1,
lock 2, token 3, done 4). -/
theorem perf_telemetry_fields_witness :
    (0 < 1 ∧ 1 ≤ 1 ∧ 1 ≤ 2 ∧
      ∀ ch ∈ [(⟨some [⟨some "hi"⟩], 3⟩ : EngineChunk)],
        2 ≤ ch.time ∧ ch.time ≤ 4) ∧
    (perfOf 1 1 2 4 (false || false)
        (firstTok [(⟨some [⟨some "hi"⟩], 3⟩ : EngineChunk)]) = none ∧
      (∃ p, perfOf 1 1 2 4 true
          (firstTok [(⟨some [⟨some "hi"⟩], 3⟩ : EngineChunk)]) = some p ∧
        p.queueMs = 2 - 1 ∧ p.generationMs = 4 - 2 ∧
        (p.ttftMs = none ↔
          producedToken [(⟨some [⟨some "hi"⟩], 3⟩ : EngineChunk)] = false) ∧
        (∀ t, p.ttftMs = some t →
          t ≤ (1 - 1) + (p.queueMs + p.generationMs))) ∧
      Frame.usage
          (usageOf (emittedText [(⟨some [⟨some "hi"⟩], 3⟩ : EngineChunk)]))
          (perfOf 1 1 2 4 true
            (firstTok [(⟨some [⟨some "hi"⟩], 3⟩ : EngineChunk)])) ∈
        generateStreamOk 1 1 2 4 true
          [(⟨some [⟨some "hi"⟩], 3⟩ : EngineChunk)]) :=
  ⟨⟨by decide, by decide, by decide, by decide⟩,
   perf_telemetry_fields 1 1 2 4 true
     [(⟨some [⟨some "hi"⟩], 3⟩ : EngineChunk)]
     (by decide) (by decide) (by decide) (by decide)⟩

lemma peakInFlight_le (maxConc : Nat) :
    ∀ (t : List GateEvent) (holders : List Nat),
      validSchedB maxConc holders t = true → holders.length ≤ maxConc →
      peakInFlight holders t ≤ maxConc := by
  intro t
  induction t with
  | nil =>
      intro holders _ hlen
      simpa [peakInFlight] using hlen
  | cons e rest ih =>
      intro holders hv hlen
      cases e with
      | acquire i =>
          simp only [validSchedB, Bool.and_eq_true, decide_eq_true_eq] at hv
          obtain ⟨⟨_, hlt⟩, hrest⟩ := hv
          simp only [peakInFlight, gateStep]
          exact max_le hlen (ih _ hrest (by simpa using hlt))
      | release i =>
          simp only [validSchedB, Bool.and_eq_true, decide_eq_true_eq] at hv
          obtain ⟨hin, hrest⟩ := hv
          simp only [peakInFlight, gateStep]
          refine max_le hlen (ih _ hrest ?_)
          exact le_trans (List.Sublist.length_le (List.erase_sublist _ _)) hlen

/-- Along a valid schedule, the multiset of held slots is exactly the initial
holders plus the acquires minus the releases seen so far. -/
lemma gateRun_count (maxConc : Nat) :
    ∀ (t : List GateEvent) (holders : List Nat),
      validSchedB maxConc holders t = true → holders.Nodup →
      ∀ i, (gateRun holders t).count i + cntRel i t =
        holders.count i + cntAcq i t := by
  intro t
  induction t with
  | nil =>
      intro holders _ _ i
      simp [gateRun, cntAcq, cntRel]
  | cons e rest ih =>
      intro holders hv hnd i
      cases e with
      | acquire j =>
          simp only [validSchedB, Bool.and_eq_true, decide_eq_true_eq] at hv
          obtain ⟨⟨hnotin, _⟩, hrest⟩ := hv
          have hih := ih (j :: holders) hrest (List.nodup_cons.mpr ⟨hnotin, hnd⟩) i
          simp only [gateRun, gateStep] at hih ⊢
          simp only [cntAcq, cntRel] at hih ⊢
          rw [List.count_cons] at hih
          by_cases hij : j = i
          · rw [if_pos hij]
            rw [if_pos (by simp [hij])] at hih
            omega
          · rw [if_neg hij]
            rw [if_neg (by simp [hij])] at hih
            omega
      | release j =>
          simp only [validSchedB, Bool.and_eq_true, decide_eq_true_eq] at hv
          obtain ⟨hin, hrest⟩ := hv
          have hih := ih (holders.erase j) hrest (List.Nodup.erase _ hnd) i
          have hpos : 0 < holders.count j := List.count_pos_iff.mpr hin
          have hcnt : (holders.erase j).count i =
              holders.count i - if j = i then 1 else 0 := by
            rw [List.count_erase]
            by_cases hij : j = i
            · subst hij
              simp
            · have hij' : ¬ i = j := fun h => hij h.symm
              simp [hij, hij']
          simp only [gateRun, gateStep] at hih ⊢
          simp only [cntAcq, cntRel] at hih ⊢
          rw [hcnt] at hih
          by_cases hij : j = i
          · rw [if_pos hij] at hih ⊢
            have hposi : 0 < holders.count i := hij ▸ hpos
            omega
          · rw [if_neg hij] at hih ⊢
            omega

lemma cntAcq_filter_id (i : Nat) (t : List GateEvent) :
    cntAcq i (t.filter (fun e => e.id == i)) = cntAcq i t := by
  induction t with
  | nil => rfl
  | cons e rest ih =>
      rw [List.filter_cons]
      by_cases hid : e.id = i
      · rw [if_pos (by simp [hid])]
        cases e with
        | acquire j => simp [cntAcq, ih]
        | release j => simp [cntAcq, ih]
      · rw [if_neg (by simp [hid])]
        cases e with
        | acquire j =>
            have hj : ¬ j = i := hid
            simp [cntAcq, if_neg hj, ih]
        | release j => simp [cntAcq, ih]

lemma cntRel_filter_id (i : Nat) (t : List GateEvent) :
    cntRel i (t.filter (fun e => e.id == i)) = cntRel i t := by
  induction t with
  | nil => rfl
  | cons e rest ih =>
      rw [List.filter_cons]
      by_cases hid : e.id = i
      · rw [if_pos (by simp [hid])]
        cases e with
        | acquire j => simp [cntRel, ih]
        | release j => simp [cntRel, ih]
      · rw [if_neg (by simp [hid])]
        cases e with
        | acquire j => simp [cntRel, ih]
        | release j =>
            have hj : ¬ j = i := hid
            simp [cntRel, if_neg hj, ih]

/-- **C1**: the Admission Gate is a counting semaphore of capacity
`max_concurrent`: on every valid schedule (acquires fire only while a slot is
free) in which each request contributes the scoped-acquisition trace of
`async with inference_lock` — one acquire and exactly one release, on every
exit path — the number of in-flight engine invocations never exceeds
`max_concurrent`, and after all requests end every slot is released
(the gate's capacity is fully restored). -/
theorem admission_gate_bounded_and_restored (maxConc : Nat)
    (trace : List GateEvent)
    (hsched : validSchedB maxConc [] trace = true)
    (hreq : ∀ i ∈ trace.map GateEvent.id, ∀ path : ExitPath,
        trace.filter (fun e => e.id == i) = emitterGateTrace i path) :
    peakInFlight [] trace ≤ maxConc ∧ gateRun [] trace = [] := by
  refine ⟨peakInFlight_le maxConc trace [] hsched (Nat.zero_le _), ?_⟩
  have hcount := gateRun_count maxConc trace [] hsched List.nodup_nil
  have hbal : ∀ i, cntAcq i trace = cntRel i trace := by
    intro i
    by_cases hmem : i ∈ trace.map GateEvent.id
    · have hfilter := hreq i hmem ExitPath.completed
      have hacq : cntAcq i trace = 1 := by
        rw [← cntAcq_filter_id i trace, hfilter]
        simp [emitterGateTrace, cntAcq]
      have hrel : cntRel i trace = 1 := by
        rw [← cntRel_filter_id i trace, hfilter]
        simp [emitterGateTrace, cntRel]
      rw [hacq, hrel]
    · have hnil : trace.filter (fun e => e.id == i) = [] := by
        rw [List.filter_eq_nil_iff]
        intro e he
        simp only [beq_iff_eq]
        exact fun h => hmem (List.mem_map.mpr ⟨e, he, h⟩)
      rw [← cntAcq_filter_id i trace, ← cntRel_filter_id i trace, hnil]
      rfl
  have hzero : ∀ i, (gateRun [] trace).count i = 0 := by
    intro i
    have h1 := hcount i
    have h2 := hbal i
    simp only [List.count_nil] at h1
    omega
  exact List.eq_nil_iff_forall_not_mem.mpr
    (fun i => List.count_eq_zero.mp (hzero i))

/-- Witness for `admission_gate_bounded_and_restored`: two requests, capacity
one, executed back to back. -/
theorem admission_gate_bounded_and_restored_witness :
    validSchedB 1 [] [GateEvent.acquire 0, GateEvent.release 0,
        GateEvent.acquire 1, GateEvent.release 1] = true ∧
    (∀ i ∈ ([GateEvent.acquire 0, GateEvent.release 0, GateEvent.acquire 1,
          GateEvent.release 1].map GateEvent.id), ∀ path : ExitPath,
        [GateEvent.acquire 0, GateEvent.release 0, GateEvent.acquire 1,
          GateEvent.release 1].filter (fun e => e.id == i) =
          emitterGateTrace i path) ∧
    (peakInFlight [] [GateEvent.acquire 0, GateEvent.release 0,
        GateEvent.acquire 1, GateEvent.release 1] ≤ 1 ∧
      gateRun [] [GateEvent.acquire 0, GateEvent.release 0,
        GateEvent.acquire 1, GateEvent.release 1] = []) :=
  ⟨by decide, by decide,
   admission_gate_bounded_and_restored 1
     [GateEvent.acquire 0, GateEvent.release 0, GateEvent.acquire 1,
      GateEvent.release 1] (by decide) (by decide)⟩

lemma isPrefixOf_append_self (a b : List Char) :
    a.isPrefixOf (a ++ b) = true := by
  rw [List.isPrefixOf_iff_prefix]
  exact List.prefix_append a b

lemma splitNl_append_cons (a t : List Char) (h : '\n' ∉ a) :
    splitNl (a ++ '\n' :: t) = a :: splitNl t := by
  induction a with
  | nil => simp [splitNl]
  | cons c a ih =>
      have hc : ¬ c = '\n' := fun hc => h (hc ▸ List.mem_cons_self _ _)
      have h' : '\n' ∉ a := fun hm => h (List.mem_cons_of_mem _ hm)
      rw [List.cons_append, splitNl, if_neg hc, ih h']

/-- The forwarding loop of `stream_response` reconstructs a well-formed SSE
body byte for byte: splitting at newlines, keeping the `"data: "` lines and
re-appending the blank-line delimiter is the identity on a concatenation of
`data: <payload>\n\n` frames. -/
lemma proxyForward_reconstructs : ∀ (frames : List (List Char)),
    (∀ f ∈ frames, ∃ s, f = dataTag ++ s ++ ['\n', '\n'] ∧ '\n' ∉ s) →
    proxyForward frames.flatten = frames.flatten := by
  intro frames
  induction frames with
  | nil => intro _; rfl
  | cons f fs ih =>
      intro h
      obtain ⟨s, hf, hs⟩ := h f (List.mem_cons_self _ _)
      have hrec := ih (fun g hg => h g (List.mem_cons_of_mem _ hg))
      have hnl : '\n' ∉ dataTag ++ s := by
        intro hm
        rcases List.mem_append.mp hm with hm | hm
        · revert hm
          decide
        · exact hs hm
      have hbody : (f :: fs).flatten =
          (dataTag ++ s) ++ '\n' :: ('\n' :: fs.flatten) := by
        rw [List.flatten_cons, hf]
        simp
      rw [hbody]
      simp only [proxyForward] at hrec ⊢
      rw [splitNl_append_cons _ _ hnl]
      rw [show splitNl ('\n' :: fs.flatten) = [] :: splitNl fs.flatten from by
        rw [splitNl, if_pos rfl]]
      rw [List.filter_cons, if_pos (by
        simp only [isPrefixOf_append_self dataTag s])]
      rw [List.filter_cons, if_neg (by decide)]
      rw [List.map_cons, List.flatten_cons, hrec]
      simp

/-- **C8**: on a streaming chat request, when the Gateway answers 200 with a
well-formed SSE body the Edge Proxy's emitted stream is byte-for-byte the
Gateway's stream (each `data: `-prefixed line forwarded verbatim with
blank-line delimiters); when the Gateway answers non-200 or is unreachable,
the proxy emits exactly one synthesized error frame instead of an HTTP error
status. -/
theorem proxy_stream_forwarding (frames : List (List Char))
    (hwf : ∀ f ∈ frames, ∃ s, f = dataTag ++ s ++ ['\n', '\n'] ∧ '\n' ∉ s) :
    streamResponse true (GatewayHttp.ok frames.flatten) = frames.flatten ∧
    (∀ code body, streamResponse true (GatewayHttp.errStatus code body) =
      errorFrame body) ∧
    (∀ msg, streamResponse true (GatewayHttp.connError msg) =
      errorFrame msg) := by
  refine ⟨?_, fun code body => rfl, fun msg => rfl⟩
  simpa [streamResponse] using proxyForward_reconstructs frames hwf

/-- Witness for `proxy_stream_forwarding`: a two-frame Gateway stream is
forwarded unchanged. -/
theorem proxy_stream_forwarding_witness :
    (∀ f ∈ [dataTag ++ "alpha".toList ++ ['\n', '\n'],
            dataTag ++ "beta".toList ++ ['\n', '\n']],
        ∃ s, f = dataTag ++ s ++ ['\n', '\n'] ∧ '\n' ∉ s) ∧
    streamResponse true (GatewayHttp.ok
        ([dataTag ++ "alpha".toList ++ ['\n', '\n'],
          dataTag ++ "beta".toList ++ ['\n', '\n']].flatten)) =
      [dataTag ++ "alpha".toList ++ ['\n', '\n'],
       dataTag ++ "beta".toList ++ ['\n', '\n']].flatten := by
  have hwf : ∀ f ∈ [dataTag ++ "alpha".toList ++ ['\n', '\n'],
      dataTag ++ "beta".toList ++ ['\n', '\n']],
      ∃ s, f = dataTag ++ s ++ ['\n', '\n'] ∧ '\n' ∉ s := by
    intro f hf
    rcases List.mem_cons.mp hf with hf | hf
    · exact ⟨"alpha".toList, hf, by decide⟩
    · rcases List.mem_cons.mp hf with hf | hf
      · exact ⟨"beta".toList, hf, by decide⟩
      · exact absurd hf (List.not_mem_nil _)
  exact ⟨hwf, (proxy_stream_forwarding _ hwf).1⟩

end MedChat
